import Mathlib

/-!
Shallow embedding of the screenplay script-parser core (src/lexer.rs,
src/parser.rs, src/ast.rs).  The lexer is modelled at line granularity:
Rust's `self.input.lines()` yields a list of newline-free lines, which is
the `List String` argument of `tokenize`.  Rust `String`s are Lean
`String`s; `str::trim`, `str::starts_with`, `str::to_lowercase` (ASCII
range) and the `regex` crate pattern `^([A-Z]+):\s*(.+)$` are modelled
explicitly below.  The parser's cursor machine (`position` over
`Vec<Token>`) is embedded as a state record with the same `current_token`
/ `advance` / `is_at_end` operations.
-/

namespace ScriptParser

/-- Unicode `White_Space` property, the character class used both by Rust's
`str::trim` (`char::is_whitespace`) and by the regex crate's `\s`. -/
def isUnicodeWs (c : Char) : Bool :=
  let n := c.toNat
  (0x9 ≤ n && n ≤ 0xD) || n = 0x20 || n = 0x85 || n = 0xA0 || n = 0x1680 ||
  (0x2000 ≤ n && n ≤ 0x200A) || n = 0x2028 || n = 0x2029 || n = 0x202F ||
  n = 0x205F || n = 0x3000

/-- Rust `str::trim`: strip Unicode whitespace from both ends. -/
def trimStr (s : String) : String :=
  String.mk (((s.toList.dropWhile isUnicodeWs).reverse.dropWhile isUnicodeWs).reverse)

/-- Rust `str::starts_with` for string prefixes. -/
def strStartsWith (s pre : String) : Bool :=
  pre.toList.isPrefixOf s.toList

/-- Byte slice `s[n..]` for the ASCII prefixes used in the lexer
(`"## "` is three one-byte characters, so byte and char counts agree). -/
def strDrop (s : String) (n : Nat) : String :=
  String.mk (s.toList.drop n)

/-- ASCII lowercasing of one character (the fragment of Rust
`str::to_lowercase` relevant to the ASCII section names compared against
`"title"`, `"characters"`, `"script"`). -/
def toLowerChar (c : Char) : Char :=
  if 'A' ≤ c && c ≤ 'Z' then Char.ofNat (c.toNat + 32) else c

/-- Rust `str::to_lowercase` (ASCII range). -/
def toLowerStr (s : String) : String :=
  String.mk (s.toList.map toLowerChar)

/-- The regex class `[A-Z]`: ASCII uppercase letters. -/
def isAsciiUpper (c : Char) : Bool :=
  'A' ≤ c && c ≤ 'Z'

/-- `Token` from src/lexer.rs. -/
inductive Token where
  | SectionHeader (name : String)
  | CharacterDef (code : String) (name : String)
  | DialogueLine (speaker : String) (text : String)
  | NarrationLine (text : String)
  | ActionText (text : String)
  | LocationHeader (name : String)
  | EOF
deriving Repr, DecidableEq

/-- The `\s*(.+)$` tail of the regex `^([A-Z]+):\s*(.+)$`: `\s*` greedily
matches a whitespace prefix of length `p` and backtracks downwards until
`(.+)$` succeeds, i.e. until the remaining suffix is non-empty and free of
`'\n'` (the regex crate's `.` does not match a newline). Returns the text
captured by `(.+)`. -/
def dotPlusTail (tail : List Char) : Nat → Option (List Char)
  | 0 =>
    if tail.isEmpty || tail.contains '\n' then none else some tail
  | q + 1 =>
    let cand := tail.drop (q + 1)
    if cand.isEmpty || cand.contains '\n' then dotPlusTail tail q
    else some cand

/-- The regex-crate pattern `^([A-Z]+):\s*(.+)$` shared by
`Lexer::parse_character_def` and `Lexer::parse_script_line`: a maximal
non-empty run of ASCII uppercase letters (greedy `[A-Z]+` followed by the
literal `':'` never matches a shorter run, since the character after a
shorter run is again uppercase), a colon, then the greedy `\s*(.+)$`
tail. Returns the two captures. -/
def regexCapture (line : String) : Option (String × String) :=
  let cs := line.toList
  let code := cs.takeWhile isAsciiUpper
  if code.isEmpty then none
  else
    match cs.dropWhile isAsciiUpper with
    | ':' :: tail =>
      (dotPlusTail tail ((tail.takeWhile isUnicodeWs).length)).map
        (fun name => (String.mk code, String.mk name))
    | _ => none

/-- `Lexer::parse_character_def` (src/lexer.rs lines 78-86). -/
def parse_character_def (line : String) : Option Token :=
  (regexCapture line).map (fun q => Token.CharacterDef q.1 q.2)

/-- `Lexer::parse_script_line` (src/lexer.rs lines 88-113): location
header `[..]`, then action text `(..)`, then the dialogue regex, then the
unconditional narration fallback. -/
def parse_script_line (line : String) : Option Token :=
  let cs := line.toList
  if cs.head? = some '[' && cs.getLast? = some ']' then
    some (Token.LocationHeader (String.mk (cs.drop 1).dropLast))
  else if cs.head? = some '(' && cs.getLast? = some ')' then
    some (Token.ActionText (String.mk (cs.drop 1).dropLast))
  else
    match regexCapture line with
    | some q => some (Token.DialogueLine q.1 q.2)
    | none => some (Token.NarrationLine line)

/-- The content-line dispatch on `current_section` inside
`Lexer::tokenize` (src/lexer.rs lines 59-71): compare the lowercased
section name and delegate to the matching line parser; other sections
drop the line. -/
def classifyContent (sec line : String) : Option Token :=
  if toLowerStr sec = "characters" then parse_character_def line
  else if toLowerStr sec = "script" then parse_script_line line
  else none

/-- The per-line loop of `Lexer::tokenize` (src/lexer.rs lines 31-76),
threading `current_section` and appending the `EOF` sentinel at the end:
blank (after trimming) lines are skipped; `"## "` lines update the section
and emit `SectionHeader`; otherwise `"# "` lines set the section to
`"title"` and emit `SectionHeader "title"`; all other lines go through the
section dispatch. -/
def tokenizeGo : List String → String → List Token
  | [], _ => [Token.EOF]
  | l :: ls, sec =>
    let trimmed := trimStr l
    if trimmed = "" then tokenizeGo ls sec
    else if strStartsWith trimmed "## " then
      let name := trimStr (strDrop trimmed 3)
      Token.SectionHeader name :: tokenizeGo ls name
    else if strStartsWith trimmed "# " then
      Token.SectionHeader "title" :: tokenizeGo ls "title"
    else
      match classifyContent sec trimmed with
      | some t => t :: tokenizeGo ls sec
      | none => tokenizeGo ls sec

/-- `Lexer::tokenize` over the list of input lines, starting from the
empty `current_section`. -/
def tokenize (lines : List String) : List Token :=
  tokenizeGo lines ""

/-- `ScriptElement` from src/ast.rs. -/
inductive ScriptElement where
  | Dialogue (speaker : String) (text : String) (actions : List String)
  | Narration (text : String)
  | Action (text : String)
deriving Repr, DecidableEq

/-- `Scene` from src/ast.rs. -/
structure Scene where
  location : Option String
  elements : List ScriptElement
deriving Repr, DecidableEq

/-- `Scene::new`. -/
def Scene.new (location : Option String) : Scene :=
  ⟨location, []⟩

/-- The parser's character mapping. Rust uses
`HashMap<String, String>`; it is modelled as an association list with
unique keys, with `HashMap::insert` semantics given by `hmInsert`. -/
abbrev Characters := List (String × String)

/-- `HashMap::insert`: replace the value when the key is present,
otherwise add the new binding (the map's size grows only for new keys). -/
def hmInsert (m : Characters) (k v : String) : Characters :=
  if m.any (fun q => q.1 = k) then
    m.map (fun q => if q.1 = k then (k, v) else q)
  else m ++ [(k, v)]

/-- `HashMap::get`. -/
def hmFind (m : Characters) (k : String) : Option String :=
  (m.find? (fun q => q.1 = k)).map (fun q => q.2)

/-- `Script` from src/ast.rs (the Document of the spec). -/
structure Script where
  title_section : String
  characters : Characters
  scenes : List Scene
deriving Repr, DecidableEq

/-- `Script::new`. -/
def Script.new : Script :=
  ⟨"", [], []⟩

/-- The `Parser` state from src/parser.rs: the token vector and the
cursor. -/
structure ParserSt where
  tokens : List Token
  position : Nat
deriving Repr, DecidableEq

/-- `Parser::current_token`:
`self.tokens.get(self.position).unwrap_or(&Token::EOF)`. -/
def current_token (p : ParserSt) : Token :=
  p.tokens.getD p.position Token.EOF

/-- `Parser::is_at_end`:
`self.position >= self.tokens.len() || matches!(self.current_token(), Token::EOF)`. -/
def is_at_end (p : ParserSt) : Bool :=
  decide (p.tokens.length ≤ p.position) || decide (current_token p = Token.EOF)

/-- `Parser::advance`: `if !self.is_at_end() { self.position += 1 }`. -/
def advance (p : ParserSt) : ParserSt :=
  if is_at_end p then p else { p with position := p.position + 1 }

theorem advance_tokens (p : ParserSt) : (advance p).tokens = p.tokens := by
  unfold advance; split <;> rfl

theorem advance_position_of_not_end (p : ParserSt) (h : is_at_end p = false) :
    (advance p).position = p.position + 1 := by
  simp [advance, h]

theorem lt_length_of_not_end (p : ParserSt) (h : is_at_end p = false) :
    p.position < p.tokens.length := by
  simp only [is_at_end, Bool.or_eq_false_iff, decide_eq_false_iff_not] at h
  omega

/-- The accumulation loop of `Parser::parse_characters` (src/parser.rs
lines 51-63): insert `CharacterDef` tokens, stop at a `SectionHeader`
without consuming it, skip everything else. -/
def parse_characters_go (p : ParserSt) (acc : Characters) : Characters × ParserSt :=
  if h : is_at_end p then (acc, p)
  else
    match current_token p with
    | Token.CharacterDef code name => parse_characters_go (advance p) (hmInsert acc code name)
    | Token.SectionHeader _ => (acc, p)
    | _ => parse_characters_go (advance p) acc
termination_by p.tokens.length - p.position
decreasing_by
  all_goals
    have hf : is_at_end p = false := by revert h; cases is_at_end p <;> simp
    rw [advance_tokens, advance_position_of_not_end p hf]
    have := lt_length_of_not_end p hf
    omega

/-- `Parser::parse_characters` (src/parser.rs lines 47-65): skip the
`"Characters"` header, then run the accumulation loop on a fresh map.
The Rust function returns `Result`, but its body has no failure path
(it ends in `Ok(characters)`), so it is modelled directly. -/
def parse_characters (p : ParserSt) : Characters × ParserSt :=
  parse_characters_go (advance p) []

/-- The scene-assembly loop of `Parser::parse_script` (src/parser.rs
lines 73-106): a `LocationHeader` pushes the current scene only when it
has elements and opens a fresh scene with the new location; content
tokens append to the current scene; a `SectionHeader` stops without
consuming; everything else is skipped. -/
def parse_script_go (p : ParserSt) (scenes : List Scene) (cur : Scene) :
    List Scene × Scene × ParserSt :=
  if h : is_at_end p then (scenes, cur, p)
  else
    match current_token p with
    | Token.LocationHeader location =>
      parse_script_go (advance p)
        (if cur.elements.isEmpty then scenes else scenes ++ [cur])
        (Scene.new (some location))
    | Token.DialogueLine speaker text =>
      parse_script_go (advance p) scenes
        ⟨cur.location, cur.elements ++ [ScriptElement.Dialogue speaker text []]⟩
    | Token.NarrationLine text =>
      parse_script_go (advance p) scenes
        ⟨cur.location, cur.elements ++ [ScriptElement.Narration text]⟩
    | Token.ActionText text =>
      parse_script_go (advance p) scenes
        ⟨cur.location, cur.elements ++ [ScriptElement.Action text]⟩
    | Token.SectionHeader _ => (scenes, cur, p)
    | _ => parse_script_go (advance p) scenes cur
termination_by p.tokens.length - p.position
decreasing_by
  all_goals
    have hf : is_at_end p = false := by revert h; cases is_at_end p <;> simp
    rw [advance_tokens, advance_position_of_not_end p hf]
    have := lt_length_of_not_end p hf
    omega

/-- `Parser::parse_script` (src/parser.rs lines 67-113): skip the
`"Script"` header, run the loop from an empty location-less scene, and
push the final scene when it is non-empty. Modelled directly since the
Rust body has no failure path (it ends in `Ok(scenes)`). -/
def parse_script (p : ParserSt) : List Scene × ParserSt :=
  let r := parse_script_go (advance p) [] (Scene.new none)
  ((if r.2.1.elements.isEmpty then r.1 else r.1 ++ [r.2.1]), r.2.2)

theorem le_advance_position (p : ParserSt) : p.position ≤ (advance p).position := by
  unfold advance; split <;> simp

theorem parse_characters_go_st (p : ParserSt) (acc : Characters) :
    (parse_characters_go p acc).2.tokens = p.tokens ∧
    p.position ≤ (parse_characters_go p acc).2.position := by
  induction p, acc using parse_characters_go.induct with
  | case1 p acc h => rw [parse_characters_go]; simp [h]
  | case2 p acc h code name heq ih =>
    rw [parse_characters_go]
    simp only [dif_neg h, heq]
    exact ⟨by rw [ih.1, advance_tokens], le_trans (le_advance_position p) ih.2⟩
  | case3 p acc h name hs =>
    rw [parse_characters_go]
    simp only [dif_neg h, hs]
    exact ⟨trivial, le_refl _⟩
  | case4 p acc h hne1 hne2 ih =>
    rw [parse_characters_go]
    simp only [dif_neg h]
    cases hct : current_token p
    case CharacterDef code name => exact ((hne1 code name hct)).elim
    case SectionHeader name => exact ((hne2 name hct)).elim
    all_goals
      exact ⟨by rw [ih.1, advance_tokens], le_trans (le_advance_position p) ih.2⟩

theorem parse_script_go_st (p : ParserSt) (scenes : List Scene) (cur : Scene) :
    (parse_script_go p scenes cur).2.2.tokens = p.tokens ∧
    p.position ≤ (parse_script_go p scenes cur).2.2.position := by
  induction p, scenes, cur using parse_script_go.induct with
  | case1 p scenes cur h => rw [parse_script_go]; simp [h]
  | case2 p scenes cur h location heq ih =>
    rw [parse_script_go]
    simp only [dif_neg h, heq]
    simp only [dite_eq_ite] at ih
    exact ⟨by rw [ih.1, advance_tokens], le_trans (le_advance_position p) ih.2⟩
  | case3 p scenes cur h speaker text heq ih =>
    rw [parse_script_go]
    simp only [dif_neg h, heq]
    exact ⟨by rw [ih.1, advance_tokens], le_trans (le_advance_position p) ih.2⟩
  | case4 p scenes cur h text heq ih =>
    rw [parse_script_go]
    simp only [dif_neg h, heq]
    exact ⟨by rw [ih.1, advance_tokens], le_trans (le_advance_position p) ih.2⟩
  | case5 p scenes cur h text heq ih =>
    rw [parse_script_go]
    simp only [dif_neg h, heq]
    exact ⟨by rw [ih.1, advance_tokens], le_trans (le_advance_position p) ih.2⟩
  | case6 p scenes cur h name hs =>
    rw [parse_script_go]
    simp only [dif_neg h, hs]
    exact ⟨trivial, le_refl _⟩
  | case7 p scenes cur h hne1 hne2 hne3 hne4 hne5 ih =>
    rw [parse_script_go]
    simp only [dif_neg h]
    cases hct : current_token p
    case LocationHeader l => exact ((hne1 l hct)).elim
    case DialogueLine s t => exact ((hne2 s t hct)).elim
    case NarrationLine t => exact ((hne3 t hct)).elim
    case ActionText t => exact ((hne4 t hct)).elim
    case SectionHeader n => exact ((hne5 n hct)).elim
    all_goals
      exact ⟨by rw [ih.1, advance_tokens], le_trans (le_advance_position p) ih.2⟩

theorem parse_characters_tokens (p : ParserSt) :
    (parse_characters p).2.tokens = p.tokens := by
  unfold parse_characters
  rw [(parse_characters_go_st (advance p) []).1, advance_tokens]

theorem parse_characters_position (p : ParserSt) (hf : is_at_end p = false) :
    p.position + 1 ≤ (parse_characters p).2.position := by
  unfold parse_characters
  have h1 := (parse_characters_go_st (advance p) []).2
  rw [advance_position_of_not_end p hf] at h1
  exact h1

theorem parse_script_tokens (p : ParserSt) :
    (parse_script p).2.tokens = p.tokens := by
  show (parse_script_go (advance p) [] (Scene.new none)).2.2.tokens = p.tokens
  rw [(parse_script_go_st (advance p) [] (Scene.new none)).1, advance_tokens]

theorem parse_script_position (p : ParserSt) (hf : is_at_end p = false) :
    p.position + 1 ≤ (parse_script p).2.position := by
  show p.position + 1 ≤ (parse_script_go (advance p) [] (Scene.new none)).2.2.position
  have h1 := (parse_script_go_st (advance p) [] (Scene.new none)).2
  rw [advance_position_of_not_end p hf] at h1
  exact h1

/-- The top-level dispatch loop of `Parser::parse` (src/parser.rs lines
20-43): on a `SectionHeader`, dispatch on the lowercased name — `"title"`
sets the fixed label, `"characters"` and `"script"` run the sub-parsers
and overwrite the corresponding field, anything else is skipped; any
non-header token is skipped. -/
def parse_go (p : ParserSt) (script : Script) : Script :=
  if h : is_at_end p then script
  else
    match current_token p with
    | Token.SectionHeader name =>
      if toLowerStr name = "title" then
        parse_go (advance p) { script with title_section := "Title Section" }
      else if toLowerStr name = "characters" then
        let r := parse_characters p
        parse_go r.2 { script with characters := r.1 }
      else if toLowerStr name = "script" then
        let r := parse_script p
        parse_go r.2 { script with scenes := r.1 }
      else parse_go (advance p) script
    | _ => parse_go (advance p) script
termination_by p.tokens.length - p.position
decreasing_by
  all_goals
    have hf : is_at_end p = false := by revert h; cases is_at_end p <;> simp
    have hlt := lt_length_of_not_end p hf
    first
      | (rw [advance_tokens, advance_position_of_not_end p hf]; omega)
      | (rw [parse_characters_tokens]; have := parse_characters_position p hf; omega)
      | (rw [parse_script_tokens]; have := parse_script_position p hf; omega)

/-- `Parser::parse` (src/parser.rs lines 16-45): run the dispatch loop
from cursor 0 on `Script::new()` and return `Ok`. The Rust signature is
`Result<Script>`; no arm of the loop or of the sub-parsers constructs an
error, and the body ends in `Ok(script)`. -/
def parse (tokens : List Token) : Except String Script :=
  Except.ok (parse_go ⟨tokens, 0⟩ Script.new)

/-! ### Fuel-indexed cursor machine

The same three loops, indexed by an explicit fuel that is spent once per
loop iteration; `none` means the fuel ran out.  These witness that the
cursor machine halts within a fuel bound computable from the token count,
and give kernel-reducible evaluation of `parse` at concrete inputs. -/

/-- Fuel-indexed `parse_characters` loop. -/
def parse_characters_go_fuel : Nat → ParserSt → Characters → Option (Characters × ParserSt)
  | 0, _, _ => none
  | f + 1, p, acc =>
    if is_at_end p then some (acc, p)
    else
      match current_token p with
      | Token.CharacterDef code name => parse_characters_go_fuel f (advance p) (hmInsert acc code name)
      | Token.SectionHeader _ => some (acc, p)
      | _ => parse_characters_go_fuel f (advance p) acc

/-- Fuel-indexed `parse_script` loop. -/
def parse_script_go_fuel : Nat → ParserSt → List Scene → Scene → Option (List Scene × Scene × ParserSt)
  | 0, _, _, _ => none
  | f + 1, p, scenes, cur =>
    if is_at_end p then some (scenes, cur, p)
    else
      match current_token p with
      | Token.LocationHeader location =>
        parse_script_go_fuel f (advance p)
          (if cur.elements.isEmpty then scenes else scenes ++ [cur])
          (Scene.new (some location))
      | Token.DialogueLine speaker text =>
        parse_script_go_fuel f (advance p) scenes
          ⟨cur.location, cur.elements ++ [ScriptElement.Dialogue speaker text []]⟩
      | Token.NarrationLine text =>
        parse_script_go_fuel f (advance p) scenes
          ⟨cur.location, cur.elements ++ [ScriptElement.Narration text]⟩
      | Token.ActionText text =>
        parse_script_go_fuel f (advance p) scenes
          ⟨cur.location, cur.elements ++ [ScriptElement.Action text]⟩
      | Token.SectionHeader _ => some (scenes, cur, p)
      | _ => parse_script_go_fuel f (advance p) scenes cur

/-- Fuel-indexed top-level `parse` loop. -/
def parse_go_fuel : Nat → ParserSt → Script → Option Script
  | 0, _, _ => none
  | f + 1, p, script =>
    if is_at_end p then some script
    else
      match current_token p with
      | Token.SectionHeader name =>
        if toLowerStr name = "title" then
          parse_go_fuel f (advance p) { script with title_section := "Title Section" }
        else if toLowerStr name = "characters" then
          match parse_characters_go_fuel f (advance p) [] with
          | none => none
          | some r => parse_go_fuel f r.2 { script with characters := r.1 }
        else if toLowerStr name = "script" then
          match parse_script_go_fuel f (advance p) [] (Scene.new none) with
          | none => none
          | some r =>
            parse_go_fuel f r.2.2
              { script with scenes := if r.2.1.elements.isEmpty then r.1 else r.1 ++ [r.2.1] }
        else parse_go_fuel f (advance p) script
      | _ => parse_go_fuel f (advance p) script

theorem not_end_step (p : ParserSt) (f : Nat) (hf : is_at_end p = false)
    (h : p.tokens.length - p.position < f + 1) :
    (advance p).tokens.length - (advance p).position < f := by
  rw [advance_tokens, advance_position_of_not_end p hf]
  have := lt_length_of_not_end p hf
  omega

theorem parse_characters_go_fuel_spec (f : Nat) :
    ∀ (p : ParserSt) (acc : Characters), p.tokens.length - p.position < f →
    parse_characters_go_fuel f p acc = some (parse_characters_go p acc) := by
  induction f with
  | zero => intro p acc h; omega
  | succ f ih =>
    intro p acc h
    by_cases he : is_at_end p = true
    · rw [parse_characters_go]
      simp [parse_characters_go_fuel, he]
    · have hf : is_at_end p = false := by revert he; cases is_at_end p <;> simp
      have hstep := not_end_step p f hf h
      rw [parse_characters_go]
      simp only [parse_characters_go_fuel, hf, dif_neg he, Bool.false_eq_true, if_false]
      cases hct : current_token p <;> simp only [hct] <;>
        first | rfl | exact ih _ _ hstep

theorem parse_script_go_fuel_spec (f : Nat) :
    ∀ (p : ParserSt) (scenes : List Scene) (cur : Scene),
    p.tokens.length - p.position < f →
    parse_script_go_fuel f p scenes cur = some (parse_script_go p scenes cur) := by
  induction f with
  | zero => intro p scenes cur h; omega
  | succ f ih =>
    intro p scenes cur h
    by_cases he : is_at_end p = true
    · rw [parse_script_go]
      simp [parse_script_go_fuel, he]
    · have hf : is_at_end p = false := by revert he; cases is_at_end p <;> simp
      have hstep := not_end_step p f hf h
      rw [parse_script_go]
      simp only [parse_script_go_fuel, hf, dif_neg he, Bool.false_eq_true, if_false,
        dite_eq_ite]
      cases hct : current_token p <;> simp only [hct] <;>
        first | rfl | exact ih _ _ _ hstep

theorem parse_go_fuel_spec (f : Nat) :
    ∀ (p : ParserSt) (s : Script), p.tokens.length - p.position < f →
    parse_go_fuel f p s = some (parse_go p s) := by
  induction f with
  | zero => intro p s h; omega
  | succ f ih =>
    intro p s h
    by_cases he : is_at_end p = true
    · rw [parse_go]
      simp [parse_go_fuel, he]
    · have hf : is_at_end p = false := by revert he; cases is_at_end p <;> simp
      have hstep := not_end_step p f hf h
      have hlt := lt_length_of_not_end p hf
      rw [parse_go]
      simp only [parse_go_fuel, hf, dif_neg he, Bool.false_eq_true, if_false]
      cases hct : current_token p <;> simp only [hct]
      case' _ =>
        rename_i name
        by_cases ht : toLowerStr name = "title"
        · simp only [ht, if_true, if_pos]
          exact ih _ _ hstep
        · by_cases hc : toLowerStr name = "characters"
          · simp only [ht, hc, if_false, if_true, if_neg, if_pos]
            rw [parse_characters_go_fuel_spec f (advance p) [] hstep]
            apply ih
            have h1 := parse_characters_tokens p
            have h2 := parse_characters_position p hf
            unfold parse_characters at h1 h2
            rw [h1]
            omega
          · by_cases hs : toLowerStr name = "script"
            · simp only [ht, hc, hs, if_false, if_true, if_neg, if_pos]
              rw [parse_script_go_fuel_spec f (advance p) [] (Scene.new none) hstep]
              apply ih
              have h1 := parse_script_tokens p
              have h2 := parse_script_position p hf
              show ((parse_script_go (advance p) [] (Scene.new none)).2.2.tokens.length -
                (parse_script_go (advance p) [] (Scene.new none)).2.2.position) < f
              have h1' : (parse_script_go (advance p) [] (Scene.new none)).2.2.tokens = p.tokens := h1
              have h2' : p.position + 1 ≤ (parse_script_go (advance p) [] (Scene.new none)).2.2.position := h2
              rw [h1']
              omega
            · simp only [ht, hc, hs, if_false, if_neg]
              exact ih _ _ hstep
      all_goals exact ih _ _ hstep

/-- Evaluation of `parse` through the fuel machine. -/
theorem parse_eval (tokens : List Token) (s : Script)
    (h : parse_go_fuel (tokens.length + 1) ⟨tokens, 0⟩ Script.new = some s) :
    parse tokens = Except.ok s := by
  have := parse_go_fuel_spec (tokens.length + 1) ⟨tokens, 0⟩ Script.new
    (by show tokens.length - 0 < tokens.length + 1; omega)
  rw [this] at h
  unfold parse
  exact congrArg Except.ok (Option.some.inj h)

/-! ### List-level forms of the three loops

Each cursor loop consumes a suffix of the token vector; the following
list-level functions compute the same results by structural recursion on
that suffix, which makes the parser's behaviour amenable to list
induction.  The bridge lemmas below prove them equal to the cursor
loops. -/

/-- Number of tokens a sub-parser loop consumes from a suffix: both the
characters loop and the script loop skip or consume tokens one at a time
and stop, without consuming, at a `SectionHeader`, at the `EOF` sentinel,
or at the end of the vector. -/
def stopIndex : List Token → Nat
  | [] => 0
  | Token.SectionHeader _ :: _ => 0
  | Token.EOF :: _ => 0
  | _ :: ts => stopIndex ts + 1

/-- The `(code, name)` pairs of the `CharacterDef` tokens the characters
loop consumes from a suffix (stopping at `SectionHeader`/`EOF`). -/
def charDefs : List Token → List (String × String)
  | [] => []
  | Token.SectionHeader _ :: _ => []
  | Token.EOF :: _ => []
  | Token.CharacterDef c n :: ts => (c, n) :: charDefs ts
  | _ :: ts => charDefs ts

/-- List-level form of the scene-assembly loop of `parse_script`. -/
def scriptFold : List Token → List Scene → Scene → List Scene × Scene
  | [], scenes, cur => (scenes, cur)
  | Token.SectionHeader _ :: _, scenes, cur => (scenes, cur)
  | Token.EOF :: _, scenes, cur => (scenes, cur)
  | Token.LocationHeader l :: ts, scenes, cur =>
    scriptFold ts (if cur.elements.isEmpty then scenes else scenes ++ [cur])
      (Scene.new (some l))
  | Token.DialogueLine sp tx :: ts, scenes, cur =>
    scriptFold ts scenes ⟨cur.location, cur.elements ++ [ScriptElement.Dialogue sp tx []]⟩
  | Token.NarrationLine tx :: ts, scenes, cur =>
    scriptFold ts scenes ⟨cur.location, cur.elements ++ [ScriptElement.Narration tx]⟩
  | Token.ActionText tx :: ts, scenes, cur =>
    scriptFold ts scenes ⟨cur.location, cur.elements ++ [ScriptElement.Action tx]⟩
  | Token.CharacterDef _ _ :: ts, scenes, cur => scriptFold ts scenes cur

/-- The epilogue of `parse_script`: push the pending scene if it has at
least one element. -/
def finishScenes (r : List Scene × Scene) : List Scene :=
  if r.2.elements.isEmpty then r.1 else r.1 ++ [r.2]

/-- The characters-section result: fold `HashMap::insert` over the
consumed definitions, starting from the empty map. -/
def charsMap (ts : List Token) : Characters :=
  List.foldl (fun m q => hmInsert m q.1 q.2) [] (charDefs ts)

/-- List-level form of the top-level dispatch loop of `parse`. -/
def topFold : List Token → Script → Script
  | [], s => s
  | Token.EOF :: _, s => s
  | Token.SectionHeader name :: ts, s =>
    if toLowerStr name = "title" then topFold ts { s with title_section := "Title Section" }
    else if toLowerStr name = "characters" then
      topFold (ts.drop (stopIndex ts)) { s with characters := charsMap ts }
    else if toLowerStr name = "script" then
      topFold (ts.drop (stopIndex ts))
        { s with scenes := finishScenes (scriptFold ts [] (Scene.new none)) }
    else topFold ts s
  | _ :: ts, s => topFold ts s
termination_by ts _ => ts.length
decreasing_by all_goals (simp [List.length_drop]; try omega)

theorem current_eq_getElem (p : ParserSt) (h : p.position < p.tokens.length) :
    current_token p = p.tokens[p.position] := by
  simp [current_token, List.getD_eq_getElem?_getD, List.getElem?_eq_getElem h]

theorem drop_cons_current (p : ParserSt) (hf : is_at_end p = false) :
    p.tokens.drop p.position = current_token p :: p.tokens.drop (p.position + 1) := by
  have hl := lt_length_of_not_end p hf
  rw [List.drop_eq_getElem_cons hl, current_eq_getElem p hl]

theorem advance_eq (p : ParserSt) (hf : is_at_end p = false) :
    advance p = ⟨p.tokens, p.position + 1⟩ := by
  simp [advance, hf]

theorem bool_not_true {b : Bool} (h : ¬ b = true) : b = false := by
  cases b <;> simp_all

theorem drop_of_end (p : ParserSt) (h : is_at_end p = true) :
    p.tokens.drop p.position = [] ∨
    ∃ rest, p.tokens.drop p.position = Token.EOF :: rest := by
  by_cases hl : p.tokens.length ≤ p.position
  · exact Or.inl (List.drop_eq_nil_of_le hl)
  · right
    push_neg at hl
    have hf : current_token p = Token.EOF := by
      simp only [is_at_end, Bool.or_eq_true, decide_eq_true_eq] at h
      rcases h with h | h
      · omega
      · exact h
    exact ⟨_, by rw [List.drop_eq_getElem_cons hl, ← current_eq_getElem p hl, hf]⟩

/-- Bridge: the characters loop equals the fold over the consumed
definitions, and its final cursor sits at the stop index. -/
theorem parse_characters_go_eq (p : ParserSt) (acc : Characters) :
    parse_characters_go p acc =
      (List.foldl (fun m q => hmInsert m q.1 q.2) acc (charDefs (p.tokens.drop p.position)),
       ⟨p.tokens, p.position + stopIndex (p.tokens.drop p.position)⟩) := by
  induction p, acc using parse_characters_go.induct with
  | case1 p acc h =>
    rw [parse_characters_go]
    simp only [dif_pos h]
    rcases drop_of_end p h with hd | ⟨rest, hd⟩ <;> simp [hd, charDefs, stopIndex]
  | case2 p acc h code name heq ih =>
    have hf : is_at_end p = false := bool_not_true h
    rw [parse_characters_go]
    simp only [dif_neg h, heq]
    rw [ih, advance_eq p hf, drop_cons_current p hf, heq]
    simp [charDefs, stopIndex]
    all_goals omega
  | case3 p acc h name hs =>
    have hf : is_at_end p = false := bool_not_true h
    rw [parse_characters_go]
    simp only [dif_neg h, hs]
    rw [drop_cons_current p hf, hs]
    simp [charDefs, stopIndex]
  | case4 p acc h hne1 hne2 ih =>
    have hf : is_at_end p = false := bool_not_true h
    rw [parse_characters_go]
    simp only [dif_neg h]
    rw [drop_cons_current p hf]
    cases hct : current_token p
    case CharacterDef code name => exact ((hne1 code name hct)).elim
    case SectionHeader name => exact ((hne2 name hct)).elim
    case EOF =>
      exfalso
      simp only [is_at_end, Bool.or_eq_false_iff, decide_eq_false_iff_not] at hf
      exact hf.2 hct
    all_goals
      rw [ih, advance_eq p hf]
      simp [charDefs, stopIndex]
      try omega

/-- Bridge: the script loop equals `scriptFold` on the consumed suffix,
and its final cursor sits at the stop index. -/
theorem parse_script_go_eq (p : ParserSt) (scenes : List Scene) (cur : Scene) :
    parse_script_go p scenes cur =
      ((scriptFold (p.tokens.drop p.position) scenes cur).1,
       (scriptFold (p.tokens.drop p.position) scenes cur).2,
       ⟨p.tokens, p.position + stopIndex (p.tokens.drop p.position)⟩) := by
  induction p, scenes, cur using parse_script_go.induct with
  | case1 p scenes cur h =>
    rw [parse_script_go]
    simp only [dif_pos h]
    rcases drop_of_end p h with hd | ⟨rest, hd⟩ <;> simp [hd, scriptFold, stopIndex]
  | case2 p scenes cur h location heq ih =>
    have hf : is_at_end p = false := bool_not_true h
    rw [parse_script_go]
    simp only [dif_neg h, heq, dite_eq_ite]
    simp only [dite_eq_ite] at ih
    rw [ih, advance_eq p hf, drop_cons_current p hf, heq]
    simp [scriptFold, stopIndex]
    all_goals omega
  | case3 p scenes cur h speaker text heq ih =>
    have hf : is_at_end p = false := bool_not_true h
    rw [parse_script_go]
    simp only [dif_neg h, heq]
    rw [ih, advance_eq p hf, drop_cons_current p hf, heq]
    simp [scriptFold, stopIndex]
    all_goals omega
  | case4 p scenes cur h text heq ih =>
    have hf : is_at_end p = false := bool_not_true h
    rw [parse_script_go]
    simp only [dif_neg h, heq]
    rw [ih, advance_eq p hf, drop_cons_current p hf, heq]
    simp [scriptFold, stopIndex]
    all_goals omega
  | case5 p scenes cur h text heq ih =>
    have hf : is_at_end p = false := bool_not_true h
    rw [parse_script_go]
    simp only [dif_neg h, heq]
    rw [ih, advance_eq p hf, drop_cons_current p hf, heq]
    simp [scriptFold, stopIndex]
    all_goals omega
  | case6 p scenes cur h name hs =>
    have hf : is_at_end p = false := bool_not_true h
    rw [parse_script_go]
    simp only [dif_neg h, hs]
    rw [drop_cons_current p hf, hs]
    simp [scriptFold, stopIndex]
  | case7 p scenes cur h hne1 hne2 hne3 hne4 hne5 ih =>
    have hf : is_at_end p = false := bool_not_true h
    rw [parse_script_go]
    simp only [dif_neg h]
    rw [drop_cons_current p hf]
    cases hct : current_token p
    case LocationHeader l => exact ((hne1 l hct)).elim
    case DialogueLine s t => exact ((hne2 s t hct)).elim
    case NarrationLine t => exact ((hne3 t hct)).elim
    case ActionText t => exact ((hne4 t hct)).elim
    case SectionHeader n => exact ((hne5 n hct)).elim
    case EOF =>
      exfalso
      simp only [is_at_end, Bool.or_eq_false_iff, decide_eq_false_iff_not] at hf
      exact hf.2 hct
    case CharacterDef c n =>
      rw [ih, advance_eq p hf]
      simp [scriptFold, stopIndex]
      try omega

/-- Bridge for `parse_characters` including the header skip. -/
theorem parse_characters_eq (p : ParserSt) (hf : is_at_end p = false) :
    parse_characters p =
      (charsMap (p.tokens.drop (p.position + 1)),
       ⟨p.tokens, (p.position + 1) + stopIndex (p.tokens.drop (p.position + 1))⟩) := by
  unfold parse_characters charsMap
  rw [advance_eq p hf]
  exact parse_characters_go_eq ⟨p.tokens, p.position + 1⟩ []

/-- Bridge for `parse_script` including the header skip and the final
push of a non-empty pending scene. -/
theorem parse_script_eq (p : ParserSt) (hf : is_at_end p = false) :
    parse_script p =
      (finishScenes (scriptFold (p.tokens.drop (p.position + 1)) [] (Scene.new none)),
       ⟨p.tokens, (p.position + 1) + stopIndex (p.tokens.drop (p.position + 1))⟩) := by
  unfold parse_script finishScenes
  rw [advance_eq p hf, parse_script_go_eq ⟨p.tokens, p.position + 1⟩ [] (Scene.new none)]

/-- Bridge: the top-level dispatch loop equals `topFold` on the token
suffix from the cursor position. -/
theorem parse_go_eq (p : ParserSt) (s : Script) :
    parse_go p s = topFold (p.tokens.drop p.position) s := by
  induction p, s using parse_go.induct with
  | case1 p s h =>
    rw [parse_go]
    simp only [dif_pos h]
    rcases drop_of_end p h with hd | ⟨rest, hd⟩ <;> simp [hd, topFold]
  | case2 p s h name hct htitle ih =>
    have hf : is_at_end p = false := bool_not_true h
    rw [parse_go]
    simp only [dif_neg h, hct]
    rw [if_pos htitle, ih, advance_eq p hf, drop_cons_current p hf, hct]
    simp [topFold, htitle]
  | case3 p s h name hct hnt hc r ih =>
    have hf : is_at_end p = false := bool_not_true h
    have hr : r = (charsMap (p.tokens.drop (p.position + 1)),
        ⟨p.tokens, (p.position + 1) + stopIndex (p.tokens.drop (p.position + 1))⟩) :=
      parse_characters_eq p hf
    rw [parse_go]
    simp only [dif_neg h, hct]
    rw [if_neg hnt, if_pos hc]
    simp only [parse_characters_eq p hf]
    simp only [hr] at ih
    rw [ih, drop_cons_current p hf, hct]
    simp [topFold, hnt, hc, List.drop_drop]
  | case4 p s h name hct hnt hnc hs r ih =>
    have hf : is_at_end p = false := bool_not_true h
    have hr : r = (finishScenes (scriptFold (p.tokens.drop (p.position + 1)) [] (Scene.new none)),
        ⟨p.tokens, (p.position + 1) + stopIndex (p.tokens.drop (p.position + 1))⟩) :=
      parse_script_eq p hf
    rw [parse_go]
    simp only [dif_neg h, hct]
    rw [if_neg hnt, if_neg hnc, if_pos hs]
    simp only [parse_script_eq p hf]
    simp only [hr] at ih
    rw [ih, drop_cons_current p hf, hct]
    simp [topFold, hnt, hnc, hs, List.drop_drop]
  | case5 p s h name hct hnt hnc hns ih =>
    have hf : is_at_end p = false := bool_not_true h
    rw [parse_go]
    simp only [dif_neg h, hct]
    rw [if_neg hnt, if_neg hnc, if_neg hns, ih, advance_eq p hf, drop_cons_current p hf, hct]
    simp [topFold, hnt, hnc, hns]
  | case6 p s h hne ih =>
    have hf : is_at_end p = false := bool_not_true h
    rw [parse_go]
    simp only [dif_neg h]
    rw [drop_cons_current p hf]
    cases hct : current_token p
    case SectionHeader name => exact ((hne name hct)).elim
    case EOF =>
      exfalso
      simp only [is_at_end, Bool.or_eq_false_iff, decide_eq_false_iff_not] at hf
      exact hf.2 hct
    all_goals
      rw [ih, advance_eq p hf]
      simp [topFold]

/-- `parse` through the list-level loop. -/
theorem parse_eq_topFold (tokens : List Token) :
    parse tokens = Except.ok (topFold tokens Script.new) := by
  unfold parse
  rw [parse_go_eq ⟨tokens, 0⟩ Script.new]
  rfl

/-! ### Auxiliary facts used by several claims -/

/-- Appending the `EOF` sentinel does not change how far a sub-parser
loop runs. -/
theorem stopIndex_append_eof (ts : List Token) :
    stopIndex (ts ++ [Token.EOF]) = stopIndex ts := by
  induction ts with
  | nil => simp [stopIndex]
  | cons t ts ih => cases t <;> simp [stopIndex, ih]

theorem charDefs_append_eof (ts : List Token) :
    charDefs (ts ++ [Token.EOF]) = charDefs ts := by
  induction ts with
  | nil => simp [charDefs]
  | cons t ts ih => cases t <;> simp [charDefs, ih]

theorem charsMap_append_eof (ts : List Token) :
    charsMap (ts ++ [Token.EOF]) = charsMap ts := by
  unfold charsMap
  rw [charDefs_append_eof]

theorem scriptFold_append_eof (l : List Token) :
    ∀ (scenes : List Scene) (cur : Scene),
    scriptFold (l ++ [Token.EOF]) scenes cur = scriptFold l scenes cur := by
  induction l with
  | nil => intro scenes cur; simp [scriptFold]
  | cons t ts ih => intro scenes cur; cases t <;> simp [scriptFold, ih]

theorem stopIndex_le_length (ts : List Token) : stopIndex ts ≤ ts.length := by
  induction ts with
  | nil => simp [stopIndex]
  | cons t ts ih => cases t <;> simp [stopIndex] <;> omega

/-- Appending the `EOF` sentinel does not change the top-level loop's
result. -/
theorem topFold_append_eof (ts : List Token) (s : Script) :
    topFold (ts ++ [Token.EOF]) s = topFold ts s := by
  induction ts, s using topFold.induct with
  | case1 s => simp [topFold]
  | case2 rest s => simp [topFold]
  | case3 name ts s htitle ih =>
    simp only [List.cons_append, topFold, if_pos htitle]
    exact ih
  | case4 name ts s hnt hc ih =>
    simp only [List.cons_append, topFold, if_neg hnt, if_pos hc]
    rw [stopIndex_append_eof, charsMap_append_eof,
      List.drop_append_of_le_length (stopIndex_le_length ts)]
    exact ih
  | case5 name ts s hnt hnc hs ih =>
    simp only [List.cons_append, topFold, if_neg hnt, if_neg hnc, if_pos hs]
    rw [stopIndex_append_eof, scriptFold_append_eof,
      List.drop_append_of_le_length (stopIndex_le_length ts)]
    exact ih
  | case6 name ts s hnt hnc hns ih =>
    simp only [List.cons_append, topFold, if_neg hnt, if_neg hnc, if_neg hns]
    exact ih
  | case7 t ts s h1 h2 ih =>
    cases t <;> simp_all [topFold]

/-! ### Claim theorems -/

/-- C1: the scenario document of the spec.  Lexing then parsing the eight
input lines produces a Document with `title_section = "Title Section"`,
the single character mapping `JOHN ↦ John Smith`, and one scene located
at `Kitchen` whose elements are, in order, the dialogue, the action and
the narration. -/
theorem claim1_scenario_pipeline :
    parse (tokenize ["# Title", "## Characters", "JOHN: John Smith", "## Script",
      "[Kitchen]", "JOHN: Hello there.", "(John waves)", "This is narration."]) =
    Except.ok
      ⟨"Title Section", [("JOHN", "John Smith")],
       [⟨some "Kitchen",
         [ScriptElement.Dialogue "JOHN" "Hello there." [],
          ScriptElement.Action "John waves",
          ScriptElement.Narration "This is narration."]⟩]⟩ :=
  parse_eval _ _ (by rfl)

/-- C8: the cursor machine of `Parser::parse` halts: running the
fuel-indexed machine with `tokens.length + 1` fuel for every loop never
exhausts the fuel and computes `parse_go`'s result (each iteration of the
top-level loop and of each sub-parser loop strictly advances the cursor,
so `tokens.length + 1` iterations always suffice). -/
theorem claim8_parse_terminates (tokens : List Token) :
    parse_go_fuel (tokens.length + 1) ⟨tokens, 0⟩ Script.new =
      some (parse_go ⟨tokens, 0⟩ Script.new) :=
  parse_go_fuel_spec (tokens.length + 1) ⟨tokens, 0⟩ Script.new
    (by show tokens.length - 0 < tokens.length + 1; omega)

/-- C6: `Parser::parse` never fails — every token sequence yields
`Ok` with a Document — and an out-of-place (non-header, non-sentinel)
token at the top level is skipped without affecting the result. -/
theorem claim6_parse_never_fails (tokens : List Token) :
    (∃ s, parse tokens = Except.ok s) ∧
    (∀ (t : Token) (ts : List Token) (s : Script),
      (∀ n, t ≠ Token.SectionHeader n) → t ≠ Token.EOF →
      topFold (t :: ts) s = topFold ts s) := by
  constructor
  · exact ⟨_, rfl⟩
  · intro t ts s hn he
    cases t <;> simp_all [topFold]

/-- Witness for C6 at a concrete skipped token. -/
theorem claim6_witness :
    (∃ s, parse [Token.NarrationLine "x"] = Except.ok s) ∧
    topFold [Token.NarrationLine "x", Token.EOF] Script.new =
      topFold [Token.EOF] Script.new :=
  ⟨(claim6_parse_never_fails [Token.NarrationLine "x"]).1,
   (claim6_parse_never_fails []).2 (Token.NarrationLine "x") [Token.EOF] Script.new
     (fun n h => by cases h) (by simp)⟩

/-- C10 (first half) and the amended C4 need one cursor step; this is the
generic single step of the script loop at a `LocationHeader`. -/
theorem script_step_location (toks : List Token) (pos : Nat) (a : String)
    (scenes : List Scene) (cur : Scene)
    (h : toks[pos]? = some (Token.LocationHeader a)) :
    parse_script_go ⟨toks, pos⟩ scenes cur =
      parse_script_go ⟨toks, pos + 1⟩
        (if cur.elements.isEmpty then scenes else scenes ++ [cur])
        (Scene.new (some a)) := by
  have hlt : pos < toks.length := by
    rcases List.getElem?_eq_some.mp h with ⟨hl, _⟩
    exact hl
  have hc : current_token ⟨toks, pos⟩ = Token.LocationHeader a := by
    show toks.getD pos Token.EOF = _
    rw [List.getD_eq_getElem?_getD, h]
    rfl
  have hf : is_at_end ⟨toks, pos⟩ = false := by
    simp [is_at_end, hc]
    omega
  rw [parse_script_go]
  simp only [dif_neg (by rw [hf]; simp : ¬ is_at_end ⟨toks, pos⟩ = true), hc]
  rw [advance_eq ⟨toks, pos⟩ hf]

/-- C4 (amended): when a `LocationHeader` is immediately followed by
another `LocationHeader`, the scene opened by the first is element-less
and is discarded, never pushed; the loop continues past both tokens with
a fresh pending scene carrying the second location (which itself reaches
the Document only if it later gains an element). -/
theorem claim4_amended_consecutive_locations (toks : List Token) (pos : Nat)
    (a b : String) (scenes : List Scene) (cur : Scene)
    (h1 : toks[pos]? = some (Token.LocationHeader a))
    (h2 : toks[pos + 1]? = some (Token.LocationHeader b)) :
    parse_script_go ⟨toks, pos⟩ scenes cur =
      parse_script_go ⟨toks, pos + 2⟩
        (if cur.elements.isEmpty then scenes else scenes ++ [cur])
        (Scene.new (some b)) := by
  rw [script_step_location toks pos a scenes cur h1,
    script_step_location toks (pos + 1) b _ _ h2]
  simp [Scene.new]

/-- Witness for the amended C4 at a concrete token pair. -/
theorem claim4_amended_witness :
    parse_script_go ⟨[Token.LocationHeader "A", Token.LocationHeader "B"], 0⟩ [] (Scene.new none) =
      parse_script_go ⟨[Token.LocationHeader "A", Token.LocationHeader "B"], 2⟩ []
        (Scene.new (some "B")) := by
  have h := claim4_amended_consecutive_locations
    [Token.LocationHeader "A", Token.LocationHeader "B"] 0 "A" "B" [] (Scene.new none)
    (by rfl) (by rfl)
  simpa [Scene.new] using h

/-- C4 counterexample: for the input lines `## Script`, `[A]`, `[B]` the
pair of consecutive location headers yields NO scene at all — not
"exactly one scene carrying the second location" — because the second
scene never gains an element and is discarded by the final non-empty
check as well. -/
theorem claim4_counterexample :
    parse (tokenize ["## Script", "[A]", "[B]"]) = Except.ok ⟨"", [], []⟩ :=
  parse_eval _ _ (by rfl)

/-- C10: a cursor at or past the end of the token vector reads the `EOF`
sentinel (`current_token`'s `unwrap_or`) and counts as the end condition,
and parsing a vector without the trailing `EOF` sentinel yields the same
Document as parsing it with the sentinel appended. -/
theorem claim10_total_without_sentinel (toks : List Token) (pos : Nat) :
    (toks.length ≤ pos →
      current_token ⟨toks, pos⟩ = Token.EOF ∧ is_at_end ⟨toks, pos⟩ = true) ∧
    parse (toks ++ [Token.EOF]) = parse toks := by
  constructor
  · intro hle
    constructor
    · exact List.getD_eq_default toks Token.EOF hle
    · simp [is_at_end, hle]
  · rw [parse_eq_topFold, parse_eq_topFold, topFold_append_eof]

/-- Witness for C10 at a concrete out-of-range cursor. -/
theorem claim10_witness :
    current_token ⟨[Token.SectionHeader "x"], 5⟩ = Token.EOF ∧
    parse ([Token.SectionHeader "x"] ++ [Token.EOF]) = parse [Token.SectionHeader "x"] :=
  ⟨((claim10_total_without_sentinel [Token.SectionHeader "x"] 5).1 (by simp)).1,
   (claim10_total_without_sentinel [Token.SectionHeader "x"] 5).2⟩

/-- A line matching `^([A-Z]+):\s*(.+)$` starts with an ASCII uppercase
letter. -/
theorem regexCapture_head_upper (line : String) (c n : String)
    (h : regexCapture line = some (c, n)) :
    ∃ ch rest, line.toList = ch :: rest ∧ isAsciiUpper ch = true := by
  unfold regexCapture at h
  cases hl : line.toList with
  | nil => rw [hl] at h; simp at h
  | cons ch rest =>
    rw [hl] at h
    by_cases hu : isAsciiUpper ch = true
    · exact ⟨ch, rest, rfl, hu⟩
    · simp [List.takeWhile_cons, hu] at h

/-- C3: a trimmed line of the shape `UPPER+: text` (one or more ASCII
uppercase letters, a colon, optional whitespace, at least one more
character — i.e. the shared regex matches with captures `c`, `n`) is
classified by the section dispatch alone: in the script section it
always becomes `DialogueLine c n` (never `CharacterDef`), in the
characters section always `CharacterDef c n` (never `DialogueLine`). -/
theorem claim3_section_disambiguation (sec line c n : String)
    (h : regexCapture line = some (c, n)) :
    (toLowerStr sec = "script" →
      classifyContent sec line = some (Token.DialogueLine c n)) ∧
    (toLowerStr sec = "characters" →
      classifyContent sec line = some (Token.CharacterDef c n)) := by
  obtain ⟨ch, rest, hl, hu⟩ := regexCapture_head_upper line c n h
  have h1 : ch ≠ '[' := fun he => by rw [he] at hu; exact absurd hu (by decide)
  have h2 : ch ≠ '(' := fun he => by rw [he] at hu; exact absurd hu (by decide)
  constructor
  · intro hs
    unfold classifyContent
    rw [hs]
    simp only [if_neg (by decide : ¬ ("script" : String) = "characters"),
      if_pos (rfl : ("script" : String) = "script")]
    have hl2 : line.data = ch :: rest := hl
    simp [parse_script_line, hl2, h1, h2, h]
  · intro hc
    unfold classifyContent
    rw [hc]
    simp [parse_character_def, h]

/-- Witness for C3 at the concrete line `JOHN: Hi`. -/
theorem claim3_witness :
    regexCapture "JOHN: Hi" = some ("JOHN", "Hi") ∧
    classifyContent "Script" "JOHN: Hi" = some (Token.DialogueLine "JOHN" "Hi") ∧
    classifyContent "Characters" "JOHN: Hi" = some (Token.CharacterDef "JOHN" "Hi") :=
  ⟨by rfl,
   (claim3_section_disambiguation "Script" "JOHN: Hi" "JOHN" "Hi" (by rfl)).1 (by rfl),
   (claim3_section_disambiguation "Characters" "JOHN: Hi" "JOHN" "Hi" (by rfl)).2 (by rfl)⟩

/-- True when a content token (dialogue, narration or action) occurs
before any `LocationHeader` in a script segment; the scan stops where the
script loop stops (`SectionHeader`, the `EOF` sentinel, or the end). -/
def contentBeforeLocation : List Token → Bool
  | [] => false
  | Token.LocationHeader _ :: _ => false
  | Token.SectionHeader _ :: _ => false
  | Token.EOF :: _ => false
  | Token.CharacterDef _ _ :: ts => contentBeforeLocation ts
  | _ :: _ => true

theorem scriptFold_all_nonempty (l : List Token) :
    ∀ (scenes : List Scene) (cur : Scene),
    (∀ sc ∈ scenes, sc.elements ≠ []) →
    ∀ sc ∈ (scriptFold l scenes cur).1, sc.elements ≠ [] := by
  induction l with
  | nil => intro scenes cur h; simpa [scriptFold] using h
  | cons t ts ih =>
    intro scenes cur h
    cases t with
    | SectionHeader name => simpa [scriptFold] using h
    | EOF => simpa [scriptFold] using h
    | LocationHeader loc =>
      simp only [scriptFold]
      apply ih
      intro sc hsc
      split at hsc
      · exact h sc hsc
      · rcases List.mem_append.mp hsc with hm | hm
        · exact h sc hm
        · have : sc = cur := List.mem_singleton.mp hm
          subst this
          rename_i hemp
          intro hn
          exact hemp (by simp [hn])
    | CharacterDef c nm => simp only [scriptFold]; exact ih scenes cur h
    | DialogueLine sp tx => simp only [scriptFold]; exact ih scenes _ h
    | NarrationLine tx => simp only [scriptFold]; exact ih scenes _ h
    | ActionText tx => simp only [scriptFold]; exact ih scenes _ h

theorem finishScenes_all_nonempty (r : List Scene × Scene)
    (h : ∀ sc ∈ r.1, sc.elements ≠ []) :
    ∀ sc ∈ finishScenes r, sc.elements ≠ [] := by
  unfold finishScenes
  split
  · exact h
  · intro sc hsc
    rcases List.mem_append.mp hsc with hm | hm
    · exact h sc hm
    · have : sc = r.2 := List.mem_singleton.mp hm
      subst this
      rename_i hemp
      intro hn
      exact hemp (by simp [hn])

theorem topFold_scenes_nonempty (ts : List Token) (s : Script) :
    (∀ sc ∈ s.scenes, sc.elements ≠ []) →
    ∀ sc ∈ (topFold ts s).scenes, sc.elements ≠ [] := by
  induction ts, s using topFold.induct with
  | case1 s => intro h; simpa [topFold] using h
  | case2 rest s => intro h; simpa [topFold] using h
  | case3 name ts s htitle ih =>
    intro h
    simp only [topFold, if_pos htitle]
    exact ih h
  | case4 name ts s hnt hc ih =>
    intro h
    simp only [topFold, if_neg hnt, if_pos hc]
    exact ih h
  | case5 name ts s hnt hnc hs ih =>
    intro h
    simp only [topFold, if_neg hnt, if_neg hnc, if_pos hs]
    refine ih ?_
    exact finishScenes_all_nonempty _
      (scriptFold_all_nonempty ts [] (Scene.new none) (by intro sc hsc; simp at hsc))
  | case6 name ts s hnt hnc hns ih =>
    intro h
    simp only [topFold, if_neg hnt, if_neg hnc, if_neg hns]
    exact ih h
  | case7 t ts s h1 h2 ih =>
    intro h
    cases t <;> simp_all [topFold]

/-- Whatever the loop does, the already-finished scenes stay as a prefix
of the final scene list. -/
theorem scriptFold_prefix (l : List Token) :
    ∀ (scenes : List Scene) (cur : Scene),
    ∃ suffix, finishScenes (scriptFold l scenes cur) = scenes ++ suffix := by
  induction l with
  | nil =>
    intro scenes cur
    unfold scriptFold finishScenes
    split
    · exact ⟨[], by simp⟩
    · exact ⟨[cur], rfl⟩
  | cons t ts ih =>
    intro scenes cur
    cases t with
    | SectionHeader name =>
      simp only [scriptFold]
      unfold finishScenes
      split
      · exact ⟨[], by simp⟩
      · exact ⟨[cur], rfl⟩
    | EOF =>
      simp only [scriptFold]
      unfold finishScenes
      split
      · exact ⟨[], by simp⟩
      · exact ⟨[cur], rfl⟩
    | LocationHeader loc =>
      simp only [scriptFold]
      by_cases hemp : cur.elements.isEmpty
      · simp only [if_pos hemp]
        exact ih scenes (Scene.new (some loc))
      · simp only [if_neg hemp]
        obtain ⟨suffix, hs⟩ := ih (scenes ++ [cur]) (Scene.new (some loc))
        exact ⟨cur :: suffix, by rw [hs]; simp⟩
    | CharacterDef c nm => simp only [scriptFold]; exact ih scenes cur
    | DialogueLine sp tx => simp only [scriptFold]; exact ih scenes _
    | NarrationLine tx => simp only [scriptFold]; exact ih scenes _
    | ActionText tx => simp only [scriptFold]; exact ih scenes _

/-- Once the pending scene is non-empty, it becomes the next scene in the
output, with its location, possibly extended by further elements. -/
theorem scriptFold_first_scene (l : List Token) :
    ∀ (scenes : List Scene) (cur : Scene), cur.elements ≠ [] →
    ∃ ext tail, finishScenes (scriptFold l scenes cur) =
      scenes ++ (⟨cur.location, cur.elements ++ ext⟩ : Scene) :: tail := by
  induction l with
  | nil =>
    intro scenes cur hne
    refine ⟨[], [], ?_⟩
    unfold scriptFold finishScenes
    rw [if_neg (by simpa using hne)]
    simp
  | cons t ts ih =>
    intro scenes cur hne
    cases t with
    | SectionHeader name =>
      refine ⟨[], [], ?_⟩
      simp only [scriptFold]
      unfold finishScenes
      rw [if_neg (by simpa using hne)]
      simp
    | EOF =>
      refine ⟨[], [], ?_⟩
      simp only [scriptFold]
      unfold finishScenes
      rw [if_neg (by simpa using hne)]
      simp
    | LocationHeader loc =>
      simp only [scriptFold, if_neg (show ¬ cur.elements.isEmpty = true by simpa using hne)]
      obtain ⟨suffix, hs⟩ := scriptFold_prefix ts (scenes ++ [cur]) (Scene.new (some loc))
      refine ⟨[], suffix, ?_⟩
      rw [hs]
      simp
    | CharacterDef c nm =>
      simp only [scriptFold]
      exact ih scenes cur hne
    | DialogueLine sp tx =>
      simp only [scriptFold]
      obtain ⟨ext, tail, hs⟩ :=
        ih scenes ⟨cur.location, cur.elements ++ [ScriptElement.Dialogue sp tx []]⟩ (by simp)
      exact ⟨ScriptElement.Dialogue sp tx [] :: ext, tail, by rw [hs]; simp⟩
    | NarrationLine tx =>
      simp only [scriptFold]
      obtain ⟨ext, tail, hs⟩ :=
        ih scenes ⟨cur.location, cur.elements ++ [ScriptElement.Narration tx]⟩ (by simp)
      exact ⟨ScriptElement.Narration tx :: ext, tail, by rw [hs]; simp⟩
    | ActionText tx =>
      simp only [scriptFold]
      obtain ⟨ext, tail, hs⟩ :=
        ih scenes ⟨cur.location, cur.elements ++ [ScriptElement.Action tx]⟩ (by simp)
      exact ⟨ScriptElement.Action tx :: ext, tail, by rw [hs]; simp⟩

/-- Content before the first location header accumulates in the initial,
location-less scene, which then leads the output. -/
theorem scriptFold_content_first (l : List Token) :
    ∀ (scenes : List Scene), contentBeforeLocation l = true →
    ∃ elems tail, elems ≠ [] ∧
      finishScenes (scriptFold l scenes (Scene.new none)) =
        scenes ++ (⟨none, elems⟩ : Scene) :: tail := by
  induction l with
  | nil => intro scenes h; simp [contentBeforeLocation] at h
  | cons t ts ih =>
    intro scenes h
    cases t with
    | LocationHeader loc => simp [contentBeforeLocation] at h
    | SectionHeader name => simp [contentBeforeLocation] at h
    | EOF => simp [contentBeforeLocation] at h
    | CharacterDef c nm =>
      simp only [contentBeforeLocation] at h
      simp only [scriptFold]
      exact ih scenes h
    | DialogueLine sp tx =>
      simp only [scriptFold]
      obtain ⟨ext, tail, hs⟩ := scriptFold_first_scene ts scenes
        ⟨none, [ScriptElement.Dialogue sp tx []]⟩ (by simp)
      exact ⟨ScriptElement.Dialogue sp tx [] :: ext, tail, by simp, by simpa [Scene.new] using hs⟩
    | NarrationLine tx =>
      simp only [scriptFold]
      obtain ⟨ext, tail, hs⟩ := scriptFold_first_scene ts scenes
        ⟨none, [ScriptElement.Narration tx]⟩ (by simp)
      exact ⟨ScriptElement.Narration tx :: ext, tail, by simp, by simpa [Scene.new] using hs⟩
    | ActionText tx =>
      simp only [scriptFold]
      obtain ⟨ext, tail, hs⟩ := scriptFold_first_scene ts scenes
        ⟨none, [ScriptElement.Action tx]⟩ (by simp)
      exact ⟨ScriptElement.Action tx :: ext, tail, by simp, by simpa [Scene.new] using hs⟩

/-- C5: every scene in a parsed Document has at least one element (empty
scenes are never appended), and the scene assembled from content that
precedes any `LocationHeader` token is the location-less first scene of
the script sub-parser's output. -/
theorem claim5_scene_invariants (tokens : List Token) (s : Script)
    (hp : parse tokens = Except.ok s) :
    (∀ sc ∈ s.scenes, sc.elements ≠ []) ∧
    (∀ pos : Nat, is_at_end ⟨tokens, pos⟩ = false →
      contentBeforeLocation (tokens.drop (pos + 1)) = true →
      ∃ elems tail, elems ≠ [] ∧
        (parse_script ⟨tokens, pos⟩).1 = (⟨none, elems⟩ : Scene) :: tail) := by
  constructor
  · rw [parse_eq_topFold tokens] at hp
    have hs : topFold tokens Script.new = s := by
      cases hp
      rfl
    rw [← hs]
    exact topFold_scenes_nonempty tokens Script.new (by intro sc hsc; simp [Script.new] at hsc)
  · intro pos hf hc
    rw [parse_script_eq ⟨tokens, pos⟩ hf]
    obtain ⟨elems, tail, hne, hs⟩ := scriptFold_content_first (tokens.drop (pos + 1)) [] hc
    exact ⟨elems, tail, hne, by simpa using hs⟩

/-- Witness for C5 at a concrete script with leading narration. -/
theorem claim5_witness :
    (∀ sc ∈ (⟨"", [], [⟨none, [ScriptElement.Narration "x"]⟩]⟩ : Script).scenes,
      sc.elements ≠ []) ∧
    (∃ elems tail, elems ≠ [] ∧
      (parse_script ⟨[Token.SectionHeader "Script", Token.NarrationLine "x", Token.EOF], 0⟩).1 =
        (⟨none, elems⟩ : Scene) :: tail) := by
  have h := claim5_scene_invariants
    [Token.SectionHeader "Script", Token.NarrationLine "x", Token.EOF]
    ⟨"", [], [⟨none, [ScriptElement.Narration "x"]⟩]⟩ (parse_eval _ _ (by rfl))
  exact ⟨h.1, h.2 0 (by rfl) (by rfl)⟩

/-- The content-line dispatch never produces a `SectionHeader` token. -/
theorem classifyContent_not_header (sec line : String) (tok : Token)
    (h : classifyContent sec line = some tok) : ∀ n, tok ≠ Token.SectionHeader n := by
  intro n
  unfold classifyContent at h
  split at h
  · unfold parse_character_def at h
    cases hc : regexCapture line with
    | none => rw [hc] at h; simp at h
    | some q =>
      rw [hc] at h
      simp only [Option.map_some', Option.some.injEq] at h
      rw [← h]
      simp
  · split at h
    · unfold parse_script_line at h
      split at h
      all_goals dsimp only at h
      all_goals
        split at h
        case isTrue =>
          simp only [Option.some.injEq] at h
          rw [← h]; simp
        case isFalse =>
          split at h
          case isTrue =>
            simp only [Option.some.injEq] at h
            rw [← h]; simp
          case isFalse =>
            simp only [Option.some.injEq] at h
            rw [← h]; simp
    · simp at h

/-- Every `SectionHeader` token the lexer emits comes from a header line:
either a `"## "` line whose trimmed remainder is the header's name, or
else a `"# "` line, which yields the fixed name `"title"`. -/
theorem sectionHeader_source (lines : List String) :
    ∀ (sec n : String), Token.SectionHeader n ∈ tokenizeGo lines sec →
    ∃ l ∈ lines,
      (strStartsWith (trimStr l) "## " = true ∧ n = trimStr (strDrop (trimStr l) 3)) ∨
      (strStartsWith (trimStr l) "## " = false ∧ strStartsWith (trimStr l) "# " = true ∧
        n = "title") := by
  induction lines with
  | nil => intro sec n h; simp [tokenizeGo] at h
  | cons l ls ih =>
    intro sec n h
    simp only [tokenizeGo] at h
    by_cases h1 : trimStr l = ""
    · rw [if_pos h1] at h
      obtain ⟨w, hw, hp⟩ := ih sec n h
      exact ⟨w, List.mem_cons_of_mem l hw, hp⟩
    · rw [if_neg h1] at h
      by_cases h2 : strStartsWith (trimStr l) "## " = true
      · rw [if_pos h2] at h
        rcases List.mem_cons.mp h with he | hm
        · exact ⟨l, List.mem_cons_self l ls,
            Or.inl ⟨h2, Token.SectionHeader.inj he⟩⟩
        · obtain ⟨w, hw, hp⟩ := ih _ n hm
          exact ⟨w, List.mem_cons_of_mem l hw, hp⟩
      · rw [if_neg h2] at h
        by_cases h3 : strStartsWith (trimStr l) "# " = true
        · rw [if_pos h3] at h
          rcases List.mem_cons.mp h with he | hm
          · exact ⟨l, List.mem_cons_self l ls,
              Or.inr ⟨bool_not_true h2, h3, Token.SectionHeader.inj he⟩⟩
          · obtain ⟨w, hw, hp⟩ := ih _ n hm
            exact ⟨w, List.mem_cons_of_mem l hw, hp⟩
        · rw [if_neg h3] at h
          cases hcc : classifyContent sec (trimStr l) with
          | none =>
            rw [hcc] at h
            obtain ⟨w, hw, hp⟩ := ih sec n h
            exact ⟨w, List.mem_cons_of_mem l hw, hp⟩
          | some tok =>
            rw [hcc] at h
            rcases List.mem_cons.mp h with he | hm
            · exact absurd he.symm (classifyContent_not_header sec (trimStr l) tok hcc n)
            · obtain ⟨w, hw, hp⟩ := ih sec n hm
              exact ⟨w, List.mem_cons_of_mem l hw, hp⟩

/-- The top loop either leaves the title as it was, or has set it to the
fixed label because some `SectionHeader` whose lowercased name is
`"title"` occurred. -/
theorem topFold_title (ts : List Token) (s : Script) :
    (topFold ts s).title_section = s.title_section ∨
    ((topFold ts s).title_section = "Title Section" ∧
      ∃ n, Token.SectionHeader n ∈ ts ∧ toLowerStr n = "title") := by
  induction ts, s using topFold.induct with
  | case1 s => left; simp [topFold]
  | case2 rest s => left; simp [topFold]
  | case3 name ts s htitle ih =>
    right
    simp only [topFold, if_pos htitle]
    rcases ih with h | ⟨h, n, hn, hl⟩
    · exact ⟨by simpa using h, name, List.mem_cons_self _ _, htitle⟩
    · exact ⟨h, n, List.mem_cons_of_mem _ hn, hl⟩
  | case4 name ts s hnt hc ih =>
    simp only [topFold, if_neg hnt, if_pos hc]
    rcases ih with h | ⟨h, n, hn, hl⟩
    · left; simpa using h
    · right; exact ⟨h, n, List.mem_cons_of_mem _ (List.mem_of_mem_drop hn), hl⟩
  | case5 name ts s hnt hnc hs ih =>
    simp only [topFold, if_neg hnt, if_neg hnc, if_pos hs]
    rcases ih with h | ⟨h, n, hn, hl⟩
    · left; simpa using h
    · right; exact ⟨h, n, List.mem_cons_of_mem _ (List.mem_of_mem_drop hn), hl⟩
  | case6 name ts s hnt hnc hns ih =>
    simp only [topFold, if_neg hnt, if_neg hnc, if_neg hns]
    rcases ih with h | ⟨h, n, hn, hl⟩
    · left; exact h
    · right; exact ⟨h, n, List.mem_cons_of_mem _ hn, hl⟩
  | case7 t ts s h1 h2 ih =>
    have ht : topFold (t :: ts) s = topFold ts s := by
      cases t <;> simp_all [topFold]
    rw [ht]
    rcases ih with h | ⟨h, n, hn, hl⟩
    · left; exact h
    · right; exact ⟨h, n, List.mem_cons_of_mem _ hn, hl⟩

/-- A line that makes the parsed title non-empty: a `"## name"` header
whose name lowercases to `"title"`, or (when it is not a `"## "` line) a
single-hash `"# "` header. -/
def titleTrigger (l : String) : Bool :=
  (strStartsWith (trimStr l) "## " &&
    decide (toLowerStr (trimStr (strDrop (trimStr l) 3)) = "title")) ||
  (!(strStartsWith (trimStr l) "## ") && strStartsWith (trimStr l) "# ")

/-- C2 counterexample: the input line `## Title` contains no line
starting with `"# "` (single hash), yet the parsed Document's
title is the non-empty label `"Title Section"` — the `"## Title"` header's
lowercased name `"title"` triggers the title arm of the parser. -/
theorem claim2_counterexample :
    (∃ s, parse (tokenize ["## Title"]) = Except.ok s ∧
      s.title_section = "Title Section" ∧ s.title_section ≠ "") ∧
    strStartsWith (trimStr "## Title") "# " = false :=
  ⟨⟨⟨"Title Section", [], []⟩, parse_eval _ _ (by rfl), rfl, by decide⟩, by rfl⟩

/-- C2 (amended): the parsed title is non-empty only if some input line
is a title trigger — a `"## name"` header whose name lowercases to
`"title"`, or a single-hash `"# "` header — and whenever non-empty it is
the fixed label `"Title Section"`, never the literal header text. -/
theorem claim2_amended_title (lines : List String) (s : Script)
    (hp : parse (tokenize lines) = Except.ok s) (hne : s.title_section ≠ "") :
    s.title_section = "Title Section" ∧ ∃ l ∈ lines, titleTrigger l = true := by
  rw [parse_eq_topFold] at hp
  have hs : topFold (tokenize lines) Script.new = s := by cases hp; rfl
  rcases topFold_title (tokenize lines) Script.new with h | ⟨h, n, hn, hl⟩
  · exact absurd (by rw [← hs]; simpa [Script.new] using h) hne
  · refine ⟨by rw [← hs]; exact h, ?_⟩
    obtain ⟨l, hlm, hp2⟩ := sectionHeader_source lines "" n hn
    refine ⟨l, hlm, ?_⟩
    unfold titleTrigger
    rcases hp2 with ⟨h2, rfl⟩ | ⟨h2, h3, rfl⟩
    · simp [h2, hl]
    · simp [h2, h3]

/-- Witness for the amended C2 at the single line `# T`. -/
theorem claim2_amended_witness :
    (⟨"Title Section", [], []⟩ : Script).title_section = "Title Section" ∧
    ∃ l ∈ (["# T"] : List String), titleTrigger l = true :=
  claim2_amended_title ["# T"] ⟨"Title Section", [], []⟩ (parse_eval _ _ (by rfl))
    (by decide)

/-! ### HashMap-model facts for C7 -/

theorem find?_map_insert (m : Characters) (k v k2 : String) (hne : k ≠ k2) :
    (m.map (fun q => if q.1 = k then (k, v) else q)).find? (fun q => q.1 = k2) =
      m.find? (fun q => q.1 = k2) := by
  induction m with
  | nil => rfl
  | cons x m ih =>
    by_cases hx : x.1 = k
    · have hx2 : ¬ x.1 = k2 := by rw [hx]; exact hne
      simp [List.find?_cons, hx, hx2, hne, ih]
    · simp [List.find?_cons, hx, ih]

theorem hmFind_insert (m : Characters) (k v k2 : String) :
    hmFind (hmInsert m k v) k2 = if k = k2 then some v else hmFind m k2 := by
  induction m with
  | nil => by_cases h : k = k2 <;> simp [hmInsert, hmFind, List.find?, h]
  | cons q m ih =>
    by_cases hqk : q.1 = k
    · have hany : (q :: m).any (fun x => x.1 = k) = true := by simp [hqk]
      by_cases hk2 : k = k2
      · simp [hmInsert, hmFind, hany, List.find?_cons, hqk, hk2]
      · have hq2 : ¬ q.1 = k2 := by rw [hqk]; exact hk2
        simp only [hmInsert, hmFind, hany, if_true, List.map_cons, if_pos hqk]
        simp [List.find?_cons, hk2, hq2, find?_map_insert m k v k2 hk2, hmFind]
    · by_cases hany : m.any (fun x => x.1 = k) = true
      · have hany2 : (q :: m).any (fun x => x.1 = k) = true := by
          simp only [List.any_cons, hany, Bool.or_true]
        have hins : hmInsert m k v = m.map (fun x => if x.1 = k then (k, v) else x) := by
          simp [hmInsert, hany]
        simp only [hmInsert, hmFind, hany2, if_true, List.map_cons, if_neg hqk]
        by_cases hq2 : q.1 = k2
        · have hk2 : ¬ k = k2 := by intro he; rw [← he] at hq2; exact hqk hq2
          simp [List.find?_cons, hq2, hk2]
        · have hthis := ih
          rw [hins] at hthis
          unfold hmFind at hthis
          simpa [List.find?_cons, hq2] using hthis
      · have hanyf : m.any (fun x => x.1 = k) = false := bool_not_true hany
        have hany2 : (q :: m).any (fun x => x.1 = k) = false := by
          simp only [List.any_cons, hanyf, Bool.or_false]
          simpa using hqk
        simp only [hmInsert, hmFind, hany2, Bool.false_eq_true, if_false, List.cons_append]
        by_cases hq2 : q.1 = k2
        · have hk2 : ¬ k = k2 := by intro he; rw [← he] at hq2; exact hqk hq2
          simp [List.find?_cons, hq2, hk2]
        · by_cases hk2 : k = k2
          · have hnone : m.find? (fun x => x.1 = k2) = none := by
              rw [List.find?_eq_none]
              intro x hx
              simp only [decide_eq_true_eq]
              intro hx2
              rw [List.any_eq_false] at hanyf
              have hxk := hanyf x hx
              simp only [decide_eq_true_eq] at hxk
              exact hxk (by rw [hx2, ← hk2])
            simp [List.find?_cons, hq2, List.find?_append, hnone, hk2, List.find?]
          · simp [List.find?_cons, hq2, List.find?_append, hk2, List.find?]

theorem foldl_insert_find (defs : List (String × String)) :
    ∀ (acc : Characters) (k : String),
    hmFind (List.foldl (fun m q => hmInsert m q.1 q.2) acc defs) k =
      ((defs.reverse.find? (fun q => q.1 = k)).map (fun q => q.2)).or (hmFind acc k) := by
  induction defs with
  | nil => intro acc k; simp
  | cons d defs ih =>
    intro acc k
    simp only [List.foldl_cons, List.reverse_cons]
    rw [ih, List.find?_append]
    cases hfind : defs.reverse.find? (fun q => decide (q.1 = k)) with
    | some q => simp [hfind]
    | none =>
      simp only [hfind, Option.none_or]
      rw [hmFind_insert]
      by_cases hk : d.1 = k
      · simp [List.find?, hk]
      · simp [List.find?, hk]

theorem keys_insert (m : Characters) (k v : String) :
    (hmInsert m k v).map (fun q => q.1) =
      if m.any (fun q => q.1 = k) then m.map (fun q => q.1)
      else m.map (fun q => q.1) ++ [k] := by
  unfold hmInsert
  split
  · rw [List.map_map]
    apply List.map_congr_left
    intro q hq
    by_cases h : q.1 = k <;> simp [h]
  · simp

theorem keys_nodup_insert (m : Characters) (k v : String)
    (h : (m.map (fun q => q.1)).Nodup) :
    ((hmInsert m k v).map (fun q => q.1)).Nodup := by
  rw [keys_insert]
  split
  · exact h
  · rename_i hany
    have hk : k ∉ m.map (fun q => q.1) := by
      intro hmem
      rcases List.mem_map.mp hmem with ⟨q, hq, hq1⟩
      exact hany (List.any_eq_true.mpr ⟨q, hq, by simp [hq1]⟩)
    simp [List.nodup_append, h, hk]

theorem keys_mem_insert (m : Characters) (k v x : String) :
    x ∈ (hmInsert m k v).map (fun q => q.1) ↔ x ∈ m.map (fun q => q.1) ∨ x = k := by
  rw [keys_insert]
  split
  · rename_i hany
    constructor
    · exact Or.inl
    · rintro (h | rfl)
      · exact h
      · rcases List.any_eq_true.mp hany with ⟨q, hq, hq1⟩
        exact List.mem_map.mpr ⟨q, hq, by simpa using hq1⟩
  · simp [List.mem_append]

theorem foldl_insert_keys_nodup (defs : List (String × String)) :
    ∀ (acc : Characters), ((acc.map (fun q => q.1)).Nodup) →
    ((List.foldl (fun m q => hmInsert m q.1 q.2) acc defs).map (fun q => q.1)).Nodup := by
  induction defs with
  | nil => intro acc h; exact h
  | cons d defs ih =>
    intro acc h
    exact ih _ (keys_nodup_insert acc d.1 d.2 h)

theorem foldl_insert_keys_mem (defs : List (String × String)) :
    ∀ (acc : Characters) (x : String),
    x ∈ (List.foldl (fun m q => hmInsert m q.1 q.2) acc defs).map (fun q => q.1) ↔
      x ∈ acc.map (fun q => q.1) ∨ x ∈ defs.map (fun q => q.1) := by
  induction defs with
  | nil => intro acc x; simp
  | cons d defs ih =>
    intro acc x
    simp only [List.foldl_cons, List.map_cons, List.mem_cons]
    rw [ih, keys_mem_insert]
    tauto

/-- C7: the characters sub-parser realizes `HashMap` semantics — the
final mapping associates each code with the name of its LAST definition
in the consumed section (a later duplicate silently overwrites), the
mapping's keys are pairwise distinct, a code is present exactly when it
was defined, and the mapping's size is the number of DISTINCT defined
codes (a re-definition does not increase it). -/
theorem claim7_last_definition_wins (toks : List Token) (pos : Nat)
    (hf : is_at_end ⟨toks, pos⟩ = false) (code : String) :
    hmFind (parse_characters ⟨toks, pos⟩).1 code =
      ((charDefs (toks.drop (pos + 1))).reverse.find? (fun q => q.1 = code)).map
        (fun q => q.2) ∧
    ((parse_characters ⟨toks, pos⟩).1.map (fun q => q.1)).Nodup ∧
    (code ∈ (parse_characters ⟨toks, pos⟩).1.map (fun q => q.1) ↔
      code ∈ (charDefs (toks.drop (pos + 1))).map (fun q => q.1)) ∧
    (parse_characters ⟨toks, pos⟩).1.length =
      ((charDefs (toks.drop (pos + 1))).map (fun q => q.1)).dedup.length := by
  rw [parse_characters_eq ⟨toks, pos⟩ hf]
  show hmFind (charsMap _) code = _ ∧ ((charsMap _).map _).Nodup ∧ _ ∧ (charsMap _).length = _
  unfold charsMap
  refine ⟨?_, ?_, ?_, ?_⟩
  · rw [foldl_insert_find]
    simp [hmFind]
  · exact foldl_insert_keys_nodup _ [] (by simp)
  · rw [foldl_insert_keys_mem]
    simp
  · have hnd : ((List.foldl (fun m q => hmInsert m q.1 q.2) []
        (charDefs (toks.drop (pos + 1)))).map (fun q => q.1)).Nodup :=
      foldl_insert_keys_nodup _ [] (by simp)
    have hperm : List.Perm
        ((List.foldl (fun m q => hmInsert m q.1 q.2) []
          (charDefs (toks.drop (pos + 1)))).map (fun q => q.1))
        (((charDefs (toks.drop (pos + 1))).map (fun q => q.1)).dedup) := by
      refine (List.perm_ext_iff_of_nodup hnd (List.nodup_dedup _)).2 ?_
      intro x
      rw [List.mem_dedup, foldl_insert_keys_mem]
      simp
    have := hperm.length_eq
    rw [List.length_map] at this
    exact this

/-- Witness for C7: the code `A` defined twice keeps only the
last-defined name, and the map size stays 1. -/
theorem claim7_witness :
    hmFind (parse_characters ⟨[Token.SectionHeader "Characters",
      Token.CharacterDef "A" "one", Token.CharacterDef "A" "two", Token.EOF], 0⟩).1 "A" =
      some "two" ∧
    (parse_characters ⟨[Token.SectionHeader "Characters",
      Token.CharacterDef "A" "one", Token.CharacterDef "A" "two", Token.EOF], 0⟩).1.length = 1 := by
  have h := claim7_last_definition_wins
    [Token.SectionHeader "Characters", Token.CharacterDef "A" "one",
     Token.CharacterDef "A" "two", Token.EOF] 0 (by rfl) "A"
  exact ⟨by rw [h.1]; rfl, by rw [h.2.2.2]; rfl⟩

/-! ### Facts for C9 -/

/-- Tokens at which both sub-parser loops stop without consuming. -/
def isStopToken : Token → Bool
  | Token.SectionHeader _ => true
  | Token.EOF => true
  | _ => false

theorem stopIndex_append_of_nonstop (l1 l2 : List Token)
    (h : ∀ t ∈ l1, isStopToken t = false) :
    stopIndex (l1 ++ l2) = l1.length + stopIndex l2 := by
  induction l1 with
  | nil => simp
  | cons t ts ih =>
    have ht := h t (List.mem_cons_self t ts)
    have hts : ∀ x ∈ ts, isStopToken x = false :=
      fun x hx => h x (List.mem_cons_of_mem t hx)
    cases t <;> simp_all [stopIndex, isStopToken] <;> omega

theorem stopIndex_eq_length_of_nonstop (l : List Token)
    (h : ∀ t ∈ l, isStopToken t = false) : stopIndex l = l.length := by
  have := stopIndex_append_of_nonstop l [] h
  simpa [stopIndex] using this

/-- C9: with two `## Characters` (resp. `## Script`) sections, the value
parsed from the second section entirely replaces the first: the final
characters mapping (resp. scenes list) is exactly the one computed from
the second section's tokens, and nothing from the first section survives
(it is overwritten, not merged). -/
theorem claim9_second_section_overwrites (ts1 ts2 : List Token) (s1 s2 : Script)
    (h1 : ∀ t ∈ ts1, isStopToken t = false)
    (h2 : ∀ t ∈ ts2, isStopToken t = false)
    (hc : parse (Token.SectionHeader "Characters" :: ts1 ++
            Token.SectionHeader "Characters" :: ts2) = Except.ok s1)
    (hs : parse (Token.SectionHeader "Script" :: ts1 ++
            Token.SectionHeader "Script" :: ts2) = Except.ok s2) :
    s1.characters = charsMap ts2 ∧
    s2.scenes = finishScenes (scriptFold ts2 [] (Scene.new none)) := by
  have e2 : stopIndex ts2 = ts2.length := stopIndex_eq_length_of_nonstop ts2 h2
  constructor
  · rw [parse_eq_topFold] at hc
    have hs1 : topFold (Token.SectionHeader "Characters" :: ts1 ++
        Token.SectionHeader "Characters" :: ts2) Script.new = s1 := by cases hc; rfl
    rw [← hs1]
    have e1 : stopIndex (ts1 ++ Token.SectionHeader "Characters" :: ts2) = ts1.length := by
      rw [stopIndex_append_of_nonstop ts1 _ h1]
      simp [stopIndex]
    have c2 : toLowerStr "Characters" = "characters" := by rfl
    simp [topFold, c2, e1, e2, List.drop_left, List.drop_length]
  · rw [parse_eq_topFold] at hs
    have hs2 : topFold (Token.SectionHeader "Script" :: ts1 ++
        Token.SectionHeader "Script" :: ts2) Script.new = s2 := by cases hs; rfl
    rw [← hs2]
    have e1 : stopIndex (ts1 ++ Token.SectionHeader "Script" :: ts2) = ts1.length := by
      rw [stopIndex_append_of_nonstop ts1 _ h1]
      simp [stopIndex]
    have c3 : toLowerStr "Script" = "script" := by rfl
    simp [topFold, c3, e1, e2, List.drop_left, List.drop_length]

/-- Witness for C9: narration in both sections; the first section's
result is discarded for both the characters map and the scenes list. -/
theorem claim9_witness :
    (⟨"", [], []⟩ : Script).characters = charsMap [Token.NarrationLine "b"] ∧
    (⟨"", [], [⟨none, [ScriptElement.Narration "b"]⟩]⟩ : Script).scenes =
      finishScenes (scriptFold [Token.NarrationLine "b"] [] (Scene.new none)) :=
  claim9_second_section_overwrites [Token.NarrationLine "a"] [Token.NarrationLine "b"]
    ⟨"", [], []⟩ ⟨"", [], [⟨none, [ScriptElement.Narration "b"]⟩]⟩
    (by simp [isStopToken]) (by simp [isStopToken])
    (parse_eval _ _ (by rfl)) (parse_eval _ _ (by rfl))

end ScriptParser
